import Mathlib

/-!
# Verification of the page-range specification parser

Shallow embedding of `src/parseRanges.js` (function `parseRanges`) and of
the copy of `parseRanges` embedded in `src/app.js`, together with proofs
of the specification's claims about them.

The JavaScript works on strings; here a string is its list of characters.
JavaScript `\s` (and `String.prototype.trim`) are the ECMAScript
whitespace set, modelled by `jsWs`; `\d` is `[0-9]`, modelled by
`jsDigit`; `parseInt(s, 10)` is modelled by `jsParseIntL` (skip leading
whitespace, optional sign, longest digit prefix, `none` for NaN).
The three regular expressions
`/^(\d+)\s*-\s*(\d+)$/`, `/^(\d+)\s*-\s*$/`, `/^\s*-\s*(\d+)$/`
are deterministic (digits, whitespace and `-` are disjoint character
classes, so greedy matching never backtracks) and are modelled by the
scanning functions `matchClosed`, `matchOpenEnd`, `matchOpenStart`.
-/

/-- ECMAScript whitespace (the set matched by `\s` and trimmed by
`String.prototype.trim`): TAB..CR, space, NBSP, and the Unicode space
separators plus line/paragraph separators and BOM. -/
def jsWs (c : Char) : Bool :=
  let n := c.toNat
  (9 ≤ n && n ≤ 13) || n == 32 || n == 160 || n == 0x1680 ||
  (0x2000 ≤ n && n ≤ 0x200A) || n == 0x2028 || n == 0x2029 ||
  n == 0x202F || n == 0x205F || n == 0x3000 || n == 0xFEFF

/-- ECMAScript `\d`, exactly the ASCII digits `0`-`9`. -/
def jsDigit (c : Char) : Bool :=
  48 ≤ c.toNat && c.toNat ≤ 57

/-- Value of a string of decimal digits, as read left to right
(the value `parseInt` gives to a pure digit string). -/
def digitsToNat (ds : List Char) : Nat :=
  ds.foldl (fun acc c => 10 * acc + (c.toNat - 48)) 0

/-- `String.prototype.trim`: drop ECMAScript whitespace from both ends. -/
def jsTrimL (cs : List Char) : List Char :=
  ((cs.dropWhile jsWs).reverse.dropWhile jsWs).reverse

/-- `s.split(',')` on the character list: split at every comma, keeping
empty segments (as JavaScript does). -/
def splitOnComma : List Char → List (List Char)
  | [] => [[]]
  | c :: rest =>
    if c = ',' then [] :: splitOnComma rest
    else
      match splitOnComma rest with
      | [] => [[c]]
      | r :: rs => (c :: r) :: rs

/-- `part.match(/^(\d+)\s*-\s*(\d+)$/)`: a non-empty digit run, optional
whitespace, `-`, optional whitespace, a non-empty digit run; returns the
two captured values. -/
def matchClosed (cs : List Char) : Option (Nat × Nat) :=
  let d1 := cs.takeWhile jsDigit
  let r1 := cs.dropWhile jsDigit
  if d1.isEmpty then none
  else
    match r1.dropWhile jsWs with
    | '-' :: r3 =>
      let r4 := r3.dropWhile jsWs
      if !r4.isEmpty && r4.all jsDigit then some (digitsToNat d1, digitsToNat r4)
      else none
    | _ => none

/-- `part.match(/^(\d+)\s*-\s*$/)`: a non-empty digit run, optional
whitespace, `-`, optional whitespace, end of string. -/
def matchOpenEnd (cs : List Char) : Option Nat :=
  let d1 := cs.takeWhile jsDigit
  let r1 := cs.dropWhile jsDigit
  if d1.isEmpty then none
  else
    match r1.dropWhile jsWs with
    | '-' :: r3 => if (r3.dropWhile jsWs).isEmpty then some (digitsToNat d1) else none
    | _ => none

/-- `part.match(/^\s*-\s*(\d+)$/)`: optional whitespace, `-`, optional
whitespace, a non-empty digit run, end of string. -/
def matchOpenStart (cs : List Char) : Option Nat :=
  match cs.dropWhile jsWs with
  | '-' :: r =>
    let r2 := r.dropWhile jsWs
    if !r2.isEmpty && r2.all jsDigit then some (digitsToNat r2) else none
  | _ => none

/-- `parseInt(part, 10)`: skip leading whitespace, read an optional sign,
then the longest prefix of decimal digits; `none` models NaN (no digits). -/
def jsParseIntL (cs : List Char) : Option Int :=
  let cs1 := cs.dropWhile jsWs
  match cs1 with
  | '-' :: r =>
    let ds := r.takeWhile jsDigit
    if ds.isEmpty then none else some (-(digitsToNat ds : Int))
  | '+' :: r =>
    let ds := r.takeWhile jsDigit
    if ds.isEmpty then none else some (digitsToNat ds : Int)
  | _ =>
    let ds := cs1.takeWhile jsDigit
    if ds.isEmpty then none else some (digitsToNat ds : Int)

/-- The range branch of `parseRanges`: swap a reversed range, clamp the
low end to `1` and the high end to `maxPages`, and list the pages
`a..b` ascending (empty when the clamped range is empty). -/
def expandRange (a b maxPages : Nat) : List Nat :=
  let p := if a > b then (b, a) else (a, b)
  let lo := max 1 p.1
  let hi := min maxPages p.2
  List.range' lo (hi + 1 - lo)

/-- One trimmed, non-empty segment of the specification, processed as in
the loop body of `parseRanges` in `src/parseRanges.js`: try the closed,
open-ended and open-start range patterns in that order; on a match expand
the range (with defaults `a = 1`, `b = maxPages` for the missing bound);
otherwise fall back to `parseInt` and keep a single in-bounds value. -/
def processPart (part : List Char) (maxPages : Nat) : List Nat :=
  match matchClosed part with
  | some (a, b) => expandRange a b maxPages
  | none =>
    match matchOpenEnd part with
    | some a => expandRange a maxPages maxPages
    | none =>
      match matchOpenStart part with
      | some b => expandRange 1 b maxPages
      | none =>
        match jsParseIntL part with
        | some n => if 1 ≤ n ∧ n ≤ (maxPages : Int) then [n.toNat] else []
        | none => []

/-- The working sequence: concatenation of the pages produced by each
segment, in order (the array `out` of the source before deduplication). -/
def expandAll (parts : List (List Char)) (maxPages : Nat) : List Nat :=
  match parts with
  | [] => []
  | p :: ps => processPart p maxPages ++ expandAll ps maxPages

/-- First-occurrence deduplication with an explicit seen set, as the
source's `out.filter(p => seen.has(p) ? false : (seen.add(p), true))`. -/
def dedupAux (seen : List Nat) : List Nat → List Nat
  | [] => []
  | x :: xs => if x ∈ seen then dedupAux seen xs else x :: dedupAux (x :: seen) xs

/-- Deduplicate keeping the first occurrence of each value. -/
def dedup (l : List Nat) : List Nat := dedupAux [] l

/-- The segments of the trimmed specification:
`s.split(',').map(x => x.trim()).filter(Boolean)`. -/
def segmentsL (cs : List Char) : List (List Char) :=
  ((splitOnComma cs).map jsTrimL).filter (fun p => !p.isEmpty)

/-- `parseRanges` of `src/parseRanges.js` on a character list. -/
def parseRangesL (cs : List Char) (maxPages : Nat) : List Nat :=
  let s := jsTrimL cs
  if s.isEmpty then []
  else dedup (expandAll (segmentsL s) maxPages)

/-- `parseRanges(str, maxPages)` of `src/parseRanges.js`. -/
def parseRanges (str : String) (maxPages : Nat) : List Nat :=
  parseRangesL str.data maxPages

/-- The loop body of the `parseRanges` copy embedded in `src/app.js`:
only the closed-range pattern is tried; everything else falls back to
`parseInt` and the single-value rule. -/
def processPartApp (part : List Char) (maxPages : Nat) : List Nat :=
  match matchClosed part with
  | some (a, b) => expandRange a b maxPages
  | none =>
    match jsParseIntL part with
    | some n => if 1 ≤ n ∧ n ≤ (maxPages : Int) then [n.toNat] else []
    | none => []

/-- Working sequence of the `src/app.js` copy. -/
def expandAllApp (parts : List (List Char)) (maxPages : Nat) : List Nat :=
  match parts with
  | [] => []
  | p :: ps => processPartApp p maxPages ++ expandAllApp ps maxPages

/-- The `parseRanges` copy embedded in `src/app.js`, on a character list. -/
def parseRangesAppL (cs : List Char) (maxPages : Nat) : List Nat :=
  let s := jsTrimL cs
  if s.isEmpty then []
  else dedup (expandAllApp (segmentsL s) maxPages)

/-- The `parseRanges` copy embedded in `src/app.js`. -/
def parseRangesApp (str : String) (maxPages : Nat) : List Nat :=
  parseRangesAppL str.data maxPages

/-! ## Character-class facts -/

/-- A decimal digit is not ECMAScript whitespace. -/
theorem not_ws_of_digit {c : Char} (h : jsDigit c = true) : jsWs c = false := by
  simp only [jsDigit, Bool.and_eq_true, decide_eq_true_eq] at h
  simp only [jsWs, Bool.or_eq_false_iff, Bool.and_eq_false_iff,
    decide_eq_false_iff_not, beq_eq_false_iff_ne, ne_eq]
  omega

/-- A decimal digit is not a comma. -/
theorem digit_ne_comma {c : Char} (h : jsDigit c = true) : ¬ c = ',' := by
  intro e
  rw [e] at h
  exact absurd h (by decide)

/-- A decimal digit is not a hyphen. -/
theorem digit_ne_hyphen {c : Char} (h : jsDigit c = true) : ¬ c = '-' := by
  intro e
  rw [e] at h
  exact absurd h (by decide)

/-! ## takeWhile / dropWhile helpers -/

/-- dropWhile is the identity on a list none of whose elements satisfy
the predicate. -/
theorem dropWhile_eq_self_of_not {p : Char → Bool} {cs : List Char}
    (h : ∀ c ∈ cs, p c = false) : cs.dropWhile p = cs := by
  cases cs with
  | nil => rfl
  | cons c cs => simp [List.dropWhile_cons, h c (List.mem_cons_self c cs)]

/-- takeWhile over a block of satisfying elements followed by a
non-satisfying one captures exactly the block. -/
theorem takeWhile_append_cons {p : Char → Bool} {xs : List Char} {y : Char}
    {ys : List Char} (hall : ∀ c ∈ xs, p c = true) (hy : p y = false) :
    (xs ++ y :: ys).takeWhile p = xs := by
  induction xs with
  | nil => simp [List.takeWhile_cons, hy]
  | cons x xs ih =>
    rw [List.cons_append, List.takeWhile_cons,
      hall x (List.mem_cons_self x xs), ih (fun c hc => hall c (List.mem_cons_of_mem x hc))]
    rfl

/-- dropWhile over a block of satisfying elements followed by a
non-satisfying one drops exactly the block. -/
theorem dropWhile_append_cons {p : Char → Bool} {xs : List Char} {y : Char}
    {ys : List Char} (hall : ∀ c ∈ xs, p c = true) (hy : p y = false) :
    (xs ++ y :: ys).dropWhile p = y :: ys := by
  induction xs with
  | nil => simp [List.dropWhile_cons, hy]
  | cons x xs ih =>
    rw [List.cons_append, List.dropWhile_cons,
      hall x (List.mem_cons_self x xs)]
    exact ih (fun c hc => hall c (List.mem_cons_of_mem x hc))

/-! ## Decimal rendering of a natural number -/

/-- The character of a single decimal digit. -/
def digitChar (d : Nat) : Char :=
  match d with
  | 0 => '0' | 1 => '1' | 2 => '2' | 3 => '3' | 4 => '4'
  | 5 => '5' | 6 => '6' | 7 => '7' | 8 => '8' | _ => '9'

/-- The decimal digit characters of `n`, most significant first. -/
def natChars (n : Nat) : List Char :=
  if h : n < 10 then [digitChar n]
  else natChars (n / 10) ++ [digitChar (n % 10)]
termination_by n
decreasing_by exact Nat.div_lt_self (by omega) (by omega)

theorem digitChar_toNat {d : Nat} (h : d < 10) : (digitChar d).toNat = 48 + d := by
  interval_cases d <;> rfl

theorem jsDigit_digitChar {d : Nat} (h : d < 10) : jsDigit (digitChar d) = true := by
  interval_cases d <;> decide

theorem natChars_all_digit (n : Nat) : ∀ c ∈ natChars n, jsDigit c = true := by
  induction n using Nat.strong_induction_on with
  | _ n ih =>
    unfold natChars
    split
    · rename_i h
      intro c hc
      rw [List.mem_singleton] at hc
      rw [hc]
      exact jsDigit_digitChar h
    · rename_i h
      intro c hc
      rcases List.mem_append.mp hc with h1 | h2
      · exact ih (n / 10) (Nat.div_lt_self (by omega) (by omega)) c h1
      · rw [List.mem_singleton] at h2
        rw [h2]
        exact jsDigit_digitChar (Nat.mod_lt _ (by omega))

theorem natChars_ne_nil (n : Nat) : natChars n ≠ [] := by
  unfold natChars
  split
  · simp
  · simp

theorem digitsToNat_append (xs : List Char) (c : Char) :
    digitsToNat (xs ++ [c]) = 10 * digitsToNat xs + (c.toNat - 48) := by
  simp [digitsToNat, List.foldl_append]

/-- Reading back the decimal rendering recovers the number. -/
theorem digitsToNat_natChars (n : Nat) : digitsToNat (natChars n) = n := by
  induction n using Nat.strong_induction_on with
  | _ n ih =>
    unfold natChars
    split
    · rename_i h
      simp only [digitsToNat, List.foldl_cons, List.foldl_nil]
      rw [digitChar_toNat h]
      omega
    · rename_i h
      rw [digitsToNat_append, ih (n / 10) (Nat.div_lt_self (by omega) (by omega)),
        digitChar_toNat (Nat.mod_lt _ (by omega))]
      omega

/-! ## Splitting and trimming -/

theorem splitOnComma_eq_single {cs : List Char} (h : ∀ c ∈ cs, ¬ c = ',') :
    splitOnComma cs = [cs] := by
  induction cs with
  | nil => rfl
  | cons c cs ih =>
    unfold splitOnComma
    rw [if_neg (h c (List.mem_cons_self c cs)),
      ih (fun x hx => h x (List.mem_cons_of_mem c hx))]

theorem jsTrimL_eq_self {cs : List Char} (h : ∀ c ∈ cs, jsWs c = false) :
    jsTrimL cs = cs := by
  unfold jsTrimL
  rw [dropWhile_eq_self_of_not h,
    dropWhile_eq_self_of_not (fun c hc => h c (List.mem_reverse.mp hc)),
    List.reverse_reverse]

/-! ## Deduplication -/

theorem mem_of_mem_dedupAux {l : List Nat} :
    ∀ {seen v}, v ∈ dedupAux seen l → v ∈ l := by
  induction l with
  | nil => intro seen v h; simp [dedupAux] at h
  | cons x xs ih =>
    intro seen v h
    simp only [dedupAux] at h
    split at h
    · exact List.mem_cons_of_mem _ (ih h)
    · rcases List.mem_cons.mp h with h1 | h2
      · rw [h1]; exact List.mem_cons_self _ _
      · exact List.mem_cons_of_mem _ (ih h2)

theorem dedupAux_nodup (l : List Nat) :
    ∀ seen, (dedupAux seen l).Nodup ∧ ∀ v ∈ dedupAux seen l, v ∉ seen := by
  induction l with
  | nil => intro seen; simp [dedupAux]
  | cons x xs ih =>
    intro seen
    simp only [dedupAux]
    split
    · exact ih seen
    · rename_i hx
      refine ⟨List.nodup_cons.mpr ⟨fun hmem => ?_, ((ih (x :: seen)).1)⟩, ?_⟩
      · exact (ih (x :: seen)).2 x hmem (List.mem_cons_self x seen)
      · intro v hv
        rcases List.mem_cons.mp hv with h1 | h2
        · rw [h1]; exact hx
        · exact fun hvs => (ih (x :: seen)).2 v h2 (List.mem_cons_of_mem x hvs)

theorem dedupAux_eq_self :
    ∀ (l seen : List Nat), l.Nodup → (∀ v ∈ l, v ∉ seen) → dedupAux seen l = l := by
  intro l
  induction l with
  | nil => intro seen _ _; rfl
  | cons x xs ih =>
    intro seen hn hs
    rw [List.nodup_cons] at hn
    simp only [dedupAux]
    rw [if_neg (hs x (List.mem_cons_self x xs))]
    rw [ih (x :: seen) hn.2 ?_]
    intro v hv
    intro hvs
    rcases List.mem_cons.mp hvs with h1 | h2
    · exact hn.1 (h1 ▸ hv)
    · exact hs v (List.mem_cons_of_mem x hv) h2

theorem dedup_nodup (l : List Nat) : (dedup l).Nodup := (dedupAux_nodup l []).1

theorem mem_of_mem_dedup {l : List Nat} {v : Nat} (h : v ∈ dedup l) : v ∈ l :=
  mem_of_mem_dedupAux h

theorem dedup_eq_self_of_nodup {l : List Nat} (h : l.Nodup) : dedup l = l :=
  dedupAux_eq_self l [] h (by simp)

theorem dedup_idem (l : List Nat) : dedup (dedup l) = dedup l :=
  dedup_eq_self_of_nodup (dedup_nodup l)

/-- Spec-side deduplication, following the specification's words: scan
left to right, keep a page number only the first time it is seen. -/
def specDedup (l : List Nat) : List Nat :=
  l.foldl (fun acc x => if x ∈ acc then acc else acc ++ [x]) []

theorem dedupAux_congr {s1 s2 : List Nat} (h : ∀ v, v ∈ s1 ↔ v ∈ s2) :
    ∀ l, dedupAux s1 l = dedupAux s2 l := by
  intro l
  induction l generalizing s1 s2 with
  | nil => rfl
  | cons x xs ih =>
    simp only [dedupAux]
    by_cases hx : x ∈ s1
    · rw [if_pos hx, if_pos ((h x).mp hx)]
      exact ih h
    · rw [if_neg hx, if_neg (fun hx2 => hx ((h x).mpr hx2))]
      exact congrArg (List.cons x) (@ih (x :: s1) (x :: s2) (fun v => by
        rw [List.mem_cons, List.mem_cons]; exact or_congr Iff.rfl (h v)))

theorem foldl_specDedup (l : List Nat) :
    ∀ acc, l.foldl (fun acc x => if x ∈ acc then acc else acc ++ [x]) acc =
      acc ++ dedupAux acc l := by
  induction l with
  | nil => intro acc; simp [dedupAux]
  | cons x xs ih =>
    intro acc
    simp only [List.foldl_cons, dedupAux]
    by_cases hx : x ∈ acc
    · rw [if_pos hx, if_pos hx, ih]
    · rw [if_neg hx, if_neg hx, ih, List.append_assoc, List.singleton_append]
      rw [@dedupAux_congr (acc ++ [x]) (x :: acc) (fun v => by
        simp [List.mem_append, List.mem_cons, or_comm]) xs]

theorem specDedup_eq_dedup (l : List Nat) : specDedup l = dedup l := by
  rw [specDedup, dedup, foldl_specDedup l [], List.nil_append]

/-! ## Pattern-match lemmas for digit strings -/

theorem not_ws_of_mem_digits {ds : List Char} (hds : ∀ c ∈ ds, jsDigit c = true) :
    ∀ c ∈ ds, jsWs c = false :=
  fun c hc => not_ws_of_digit (hds c hc)

theorem isEmpty_false_of_ne_nil {ds : List Char} (h : ds ≠ []) : ds.isEmpty = false := by
  cases ds with
  | nil => exact absurd rfl h
  | cons c cs => rfl

theorem matchClosed_digits {ds es : List Char}
    (hds : ds ≠ []) (hds2 : ∀ c ∈ ds, jsDigit c = true)
    (hes : es ≠ []) (hes2 : ∀ c ∈ es, jsDigit c = true) :
    matchClosed (ds ++ '-' :: es) = some (digitsToNat ds, digitsToNat es) := by
  have hdrop : ('-' :: es).dropWhile jsWs = '-' :: es :=
    dropWhile_eq_self_of_not (fun c hc => by
      rcases List.mem_cons.mp hc with h1 | h2
      · rw [h1]; decide
      · exact not_ws_of_digit (hes2 c h2))
  simp only [matchClosed,
    @takeWhile_append_cons jsDigit ds '-' es hds2 (by decide),
    @dropWhile_append_cons jsDigit ds '-' es hds2 (by decide),
    isEmpty_false_of_ne_nil hds,
    Bool.false_eq_true, if_false, hdrop,
    dropWhile_eq_self_of_not (not_ws_of_mem_digits hes2),
    isEmpty_false_of_ne_nil hes, Bool.not_false, List.all_eq_true.mpr hes2,
    Bool.and_self, if_true]

theorem matchClosed_openEnd_none {ds : List Char}
    (hds : ds ≠ []) (hds2 : ∀ c ∈ ds, jsDigit c = true) :
    matchClosed (ds ++ ['-']) = none := by
  simp only [matchClosed,
    @takeWhile_append_cons jsDigit ds '-' [] hds2 (by decide),
    @dropWhile_append_cons jsDigit ds '-' [] hds2 (by decide),
    isEmpty_false_of_ne_nil hds, List.dropWhile_cons,
    show jsWs '-' = false from by decide,
    Bool.false_eq_true, if_false, List.dropWhile_nil, List.isEmpty_nil,
    Bool.not_true, Bool.false_and, if_false]

theorem matchOpenEnd_digits {ds : List Char}
    (hds : ds ≠ []) (hds2 : ∀ c ∈ ds, jsDigit c = true) :
    matchOpenEnd (ds ++ ['-']) = some (digitsToNat ds) := by
  simp only [matchOpenEnd,
    @takeWhile_append_cons jsDigit ds '-' [] hds2 (by decide),
    @dropWhile_append_cons jsDigit ds '-' [] hds2 (by decide),
    isEmpty_false_of_ne_nil hds, List.dropWhile_cons,
    show jsWs '-' = false from by decide,
    Bool.false_eq_true, if_false, List.dropWhile_nil, List.isEmpty_nil, if_true]

theorem matchClosed_openStart_none {ds : List Char} :
    matchClosed ('-' :: ds) = none := by
  simp only [matchClosed, List.takeWhile_cons]
  rw [show jsDigit '-' = false from by decide]
  rfl

theorem matchOpenEnd_openStart_none {ds : List Char} :
    matchOpenEnd ('-' :: ds) = none := by
  simp only [matchOpenEnd, List.takeWhile_cons]
  rw [show jsDigit '-' = false from by decide]
  rfl

theorem matchOpenStart_digits {ds : List Char}
    (hds : ds ≠ []) (hds2 : ∀ c ∈ ds, jsDigit c = true) :
    matchOpenStart ('-' :: ds) = some (digitsToNat ds) := by
  have hdrop : ('-' :: ds).dropWhile jsWs = '-' :: ds :=
    dropWhile_eq_self_of_not (fun c hc => by
      rcases List.mem_cons.mp hc with h1 | h2
      · rw [h1]; decide
      · exact not_ws_of_digit (hds2 c h2))
  simp only [matchOpenStart, hdrop,
    dropWhile_eq_self_of_not (not_ws_of_mem_digits hds2),
    isEmpty_false_of_ne_nil hds, Bool.not_false, List.all_eq_true.mpr hds2,
    Bool.and_self, if_true]

/-! ## Range expansion -/

/-- Normal form of the range branch: swap-then-clamp equals the interval
from `max 1 (min a b)` to `min maxPages (max a b)`. -/
theorem expandRange_eq (a b N : Nat) :
    expandRange a b N =
      List.range' (max 1 (min a b)) (min N (max a b) + 1 - max 1 (min a b)) := by
  simp only [expandRange]
  split
  · rename_i h
    have h1 : min a b = b := by omega
    have h2 : max a b = a := by omega
    rw [h1, h2]
  · rename_i h
    have h1 : min a b = a := by omega
    have h2 : max a b = b := by omega
    rw [h1, h2]

theorem expandRange_comm (a b N : Nat) : expandRange a b N = expandRange b a N := by
  rw [expandRange_eq, expandRange_eq]
  congr 1 <;> omega

theorem mem_expandRange {a b N v : Nat} (h : v ∈ expandRange a b N) :
    1 ≤ v ∧ v ≤ N := by
  rw [expandRange_eq] at h
  rw [List.mem_range'_1] at h
  omega

/-! ## Segment processing -/

/-- Every page produced by a segment lies in `[1, maxPages]`. -/
theorem processPart_bounds {part : List Char} {N v : Nat}
    (h : v ∈ processPart part N) : 1 ≤ v ∧ v ≤ N := by
  cases hm : matchClosed part with
  | some ab =>
    obtain ⟨a, b⟩ := ab
    simp only [processPart, hm] at h
    exact mem_expandRange h
  | none =>
    cases he : matchOpenEnd part with
    | some a =>
      simp only [processPart, hm, he] at h
      exact mem_expandRange h
    | none =>
      cases hs : matchOpenStart part with
      | some b =>
        simp only [processPart, hm, he, hs] at h
        exact mem_expandRange h
      | none =>
        cases hp : jsParseIntL part with
        | some n =>
          simp only [processPart, hm, he, hs, hp] at h
          split at h
          · rename_i hn
            rw [List.mem_singleton] at h
            rw [h]
            omega
          · simp at h
        | none =>
          simp only [processPart, hm, he, hs, hp] at h
          simp at h

theorem mem_expandAll {parts : List (List Char)} {N v : Nat}
    (h : v ∈ expandAll parts N) : 1 ≤ v ∧ v ≤ N := by
  induction parts with
  | nil => simp [expandAll] at h
  | cons p ps ih =>
    simp only [expandAll] at h
    rcases List.mem_append.mp h with h1 | h2
    · exact processPart_bounds h1
    · exact ih h2

theorem expandAll_append (l1 l2 : List (List Char)) (N : Nat) :
    expandAll (l1 ++ l2) N = expandAll l1 N ++ expandAll l2 N := by
  induction l1 with
  | nil => rfl
  | cons p ps ih =>
    simp only [List.cons_append, expandAll, List.append_eq, ih, List.append_assoc]

/-- `parseRanges` always equals the deduplicated working sequence of its
segments (the early return for an all-whitespace input agrees with it). -/
theorem parseRangesL_eq_dedup (cs : List Char) (N : Nat) :
    parseRangesL cs N = dedup (expandAll (segmentsL (jsTrimL cs)) N) := by
  simp only [parseRangesL]
  split
  · rename_i h
    rw [show jsTrimL cs = [] from by
      cases he : jsTrimL cs with
      | nil => rfl
      | cons c cs2 => rw [he] at h; exact absurd h (by simp)]
    rfl
  · rfl

/-- A non-empty specification with no whitespace and no comma is a single
segment, processed whole. -/
theorem parseRangesL_one_part {cs : List Char} (hne : cs ≠ [])
    (hok : ∀ c ∈ cs, jsWs c = false ∧ ¬ c = ',') (N : Nat) :
    parseRangesL cs N = dedup (processPart cs N) := by
  rw [parseRangesL_eq_dedup]
  rw [jsTrimL_eq_self (fun c hc => (hok c hc).1)]
  unfold segmentsL
  rw [splitOnComma_eq_single (fun c hc => (hok c hc).2)]
  simp only [List.map_cons, List.map_nil,
    jsTrimL_eq_self (fun c hc => (hok c hc).1), List.filter_cons,
    isEmpty_false_of_ne_nil hne, Bool.not_false, if_true, List.filter_nil]
  simp only [expandAll, List.append_nil]

/-- Characters of a digit run with an optional hyphen are neither
whitespace nor commas. -/
theorem chars_ok_of_digit_or_hyphen {cs : List Char}
    (h : ∀ c ∈ cs, jsDigit c = true ∨ c = '-') :
    ∀ c ∈ cs, jsWs c = false ∧ ¬ c = ',' := by
  intro c hc
  rcases h c hc with hd | hh
  · exact ⟨not_ws_of_digit hd, digit_ne_comma hd⟩
  · rw [hh]
    exact ⟨by decide, by decide⟩

theorem mem_closed_token {a b : Nat} :
    ∀ c ∈ natChars a ++ '-' :: natChars b, jsDigit c = true ∨ c = '-' := by
  intro c hc
  rcases List.mem_append.mp hc with h1 | h2
  · exact Or.inl (natChars_all_digit a c h1)
  · rcases List.mem_cons.mp h2 with h3 | h4
    · exact Or.inr h3
    · exact Or.inl (natChars_all_digit b c h4)

/-- Parsing the single closed-range token `a-b`. -/
theorem parse_closed_token (a b N : Nat) :
    parseRangesL (natChars a ++ '-' :: natChars b) N = dedup (expandRange a b N) := by
  rw [parseRangesL_one_part (by simp [natChars_ne_nil a])
    (chars_ok_of_digit_or_hyphen mem_closed_token) N]
  unfold processPart
  rw [matchClosed_digits (natChars_ne_nil a) (natChars_all_digit a)
    (natChars_ne_nil b) (natChars_all_digit b),
    digitsToNat_natChars, digitsToNat_natChars]

/-- Parsing the single open-ended token `k-`. -/
theorem parse_openEnd_token (k N : Nat) :
    parseRangesL (natChars k ++ ['-']) N = dedup (expandRange k N N) := by
  rw [parseRangesL_one_part (by simp [natChars_ne_nil k])
    (chars_ok_of_digit_or_hyphen (fun c hc => by
      rcases List.mem_append.mp hc with h1 | h2
      · exact Or.inl (natChars_all_digit k c h1)
      · rw [List.mem_singleton] at h2
        exact Or.inr h2)) N]
  unfold processPart
  rw [matchClosed_openEnd_none (natChars_ne_nil k) (natChars_all_digit k),
    matchOpenEnd_digits (natChars_ne_nil k) (natChars_all_digit k),
    digitsToNat_natChars]

/-- Parsing the single open-start token `-k`. -/
theorem parse_openStart_token (k N : Nat) :
    parseRangesL ('-' :: natChars k) N = dedup (expandRange 1 k N) := by
  rw [parseRangesL_one_part (by simp)
    (chars_ok_of_digit_or_hyphen (fun c hc => by
      rcases List.mem_cons.mp hc with h1 | h2
      · exact Or.inr h1
      · exact Or.inl (natChars_all_digit k c h2))) N]
  unfold processPart
  rw [matchClosed_openStart_none, matchOpenEnd_openStart_none,
    matchOpenStart_digits (natChars_ne_nil k) (natChars_all_digit k),
    digitsToNat_natChars]

/-! ## Relating the two copies of the parser -/

theorem processPart_eq_app {part : List Char} {N : Nat}
    (he : matchOpenEnd part = none) (hs : matchOpenStart part = none) :
    processPart part N = processPartApp part N := by
  unfold processPart processPartApp
  cases hm : matchClosed part with
  | some ab => rfl
  | none => rw [he, hs]

theorem expandAll_eq_app {parts : List (List Char)} {N : Nat}
    (h : ∀ p ∈ parts, matchOpenEnd p = none ∧ matchOpenStart p = none) :
    expandAll parts N = expandAllApp parts N := by
  induction parts with
  | nil => rfl
  | cons p ps ih =>
    simp only [expandAll, expandAllApp]
    rw [processPart_eq_app (h p (List.mem_cons_self p ps)).1
      (h p (List.mem_cons_self p ps)).2,
      ih (fun q hq => h q (List.mem_cons_of_mem p hq))]

/-! ## Claims -/

/-- C1: the parse function reproduces every concrete scenario of the
normative edge-case table exactly: ranges and singles, whitespace and
duplicates, out-of-bounds dropping, reversed ranges, open-ended and
open-start ranges, the empty input, and the invalid-token row. -/
theorem parseRanges_edge_case_table :
    parseRanges "1-3,5,7-8" 10 = [1, 2, 3, 5, 7, 8] ∧
    parseRanges " 1, 2 ,2, 3 " 10 = [1, 2, 3] ∧
    parseRanges "0,1,5,12" 5 = [1, 5] ∧
    parseRanges "3-1" 5 = [1, 2, 3] ∧
    parseRanges "7-" 10 = [7, 8, 9, 10] ∧
    parseRanges "-3" 10 = [1, 2, 3] ∧
    parseRanges "" 10 = [] ∧
    parseRanges "a,1-b,4" 10 = [1, 4] := by
  decide

/-- C2 (counterexample): contrary to the claim, the token `1-b` is not
rejected as a whole: at upperBound 10 it contributes the page 1, because
after all three range patterns fail the single-value fallback applies
`parseInt`, which salvages the leading digit. -/
theorem parseRanges_token_1b_salvaged :
    parseRanges "1-b" 10 = [1] ∧ parseRanges "1-b" 10 ≠ [] := by
  decide

/-- C2 (amended): a token that looks like a range but has a non-numeric
second half, such as `1-b`, fails all three range patterns and then falls
back to the single-value branch, where `parseInt` salvages its leading
digits as a standalone value: for every upperBound `N`, parsing `"1-b"`
yields `[1]` when `1 ≤ N` and `[]` only when `N = 0`. -/
theorem parseRanges_token_1b_amended (N : Nat) :
    parseRanges "1-b" N = if 1 ≤ N then [1] else [] := by
  rw [parseRanges, parseRangesL_one_part (by decide) (by decide) N]
  simp only [processPart,
    show matchClosed ("1-b".data) = none from by decide,
    show matchOpenEnd ("1-b".data) = none from by decide,
    show matchOpenStart ("1-b".data) = none from by decide,
    show jsParseIntL ("1-b".data) = some 1 from by decide]
  by_cases hN : 1 ≤ N
  · rw [if_pos ⟨by decide, by exact_mod_cast hN⟩, if_pos hN]
    rfl
  · rw [if_neg (fun hc => hN (by exact_mod_cast hc.2)), if_neg hN]
    rfl

/-- C3: bounds invariant — for every specification and every upperBound,
every value in the output lies in `[1, upperBound]`; in particular with
upperBound 0 the output is always empty. -/
theorem parseRanges_bounds_invariant (str : String) (N : Nat) :
    (∀ v ∈ parseRanges str N, 1 ≤ v ∧ v ≤ N) ∧
    (N = 0 → parseRanges str N = []) := by
  have hb : ∀ v ∈ parseRanges str N, 1 ≤ v ∧ v ≤ N := by
    intro v hv
    rw [parseRanges, parseRangesL_eq_dedup] at hv
    exact mem_expandAll (mem_of_mem_dedup hv)
  refine ⟨hb, fun h0 => ?_⟩
  rw [List.eq_nil_iff_forall_not_mem]
  intro v hv
  have := hb v hv
  omega

theorem parseRanges_bounds_invariant_witness :
    (1 ≤ 2 ∧ 2 ≤ 10) ∧ parseRanges "5" 0 = [] :=
  ⟨(parseRanges_bounds_invariant "1-3" 10).1 2 (by decide),
   (parseRanges_bounds_invariant "5" 0).2 rfl⟩

/-- C4: totality / no-fault — the parser returns a (possibly empty)
result on every input, and a malformed segment (one producing no pages)
can be removed from the segment list without changing the result:
malformed tokens only reduce the number of produced pages. -/
theorem parseRanges_no_fault (str : String) (N : Nat) :
    (∃ out : List Nat, parseRanges str N = out) ∧
    ∀ (p1 p2 : List (List Char)) (t : List Char), processPart t N = [] →
      dedup (expandAll (p1 ++ t :: p2) N) = dedup (expandAll (p1 ++ p2) N) := by
  refine ⟨⟨parseRanges str N, rfl⟩, ?_⟩
  intro p1 p2 t ht
  rw [expandAll_append, expandAll_append]
  simp only [expandAll, ht, List.nil_append]

theorem parseRanges_no_fault_witness :
    (∃ out : List Nat, parseRanges "1-3" 10 = out) ∧
    dedup (expandAll ([['1']] ++ ['a'] :: [['3']]) 10) =
      dedup (expandAll ([['1']] ++ [['3']]) 10) :=
  ⟨(parseRanges_no_fault "1-3" 10).1,
   (parseRanges_no_fault "1-3" 10).2 [['1']] [['3']] ['a'] (by decide)⟩

/-- C5: clamping vs dropping asymmetry — a closed-range token is clamped
into `[1, upperBound]` (its pages are the interval from
`max 1 (min a b)` to `min upperBound (max a b)`, so a range entirely
outside contributes no pages), while a standalone single value out of
bounds is dropped entirely, never clamped. -/
theorem parseRanges_clamp_vs_drop :
    parseRanges "0-2" 5 = [1, 2] ∧
    parseRanges "0" 5 = [] ∧
    (∀ (part : List Char) (a b N : Nat), matchClosed part = some (a, b) →
      processPart part N =
        List.range' (max 1 (min a b)) (min N (max a b) + 1 - max 1 (min a b))) ∧
    (∀ (part : List Char) (a b N : Nat), matchClosed part = some (a, b) →
      (N < min a b ∨ max a b = 0) → processPart part N = []) ∧
    (∀ (part : List Char) (N : Nat) (n : Int), matchClosed part = none →
      matchOpenEnd part = none → matchOpenStart part = none →
      jsParseIntL part = some n → ¬(1 ≤ n ∧ n ≤ (N : Int)) →
      processPart part N = []) := by
  refine ⟨by decide, by decide, ?_, ?_, ?_⟩
  · intro part a b N hm
    simp only [processPart, hm]
    exact expandRange_eq a b N
  · intro part a b N hm hout
    simp only [processPart, hm]
    rw [expandRange_eq,
      show min N (max a b) + 1 - max 1 (min a b) = 0 from by omega]
    rfl
  · intro part N n hm he hs hp hn
    simp only [processPart, hm, he, hs, hp]
    rw [if_neg hn]

theorem parseRanges_clamp_vs_drop_witness :
    processPart ("0-2".data) 5 =
      List.range' (max 1 (min 0 2)) (min 5 (max 0 2) + 1 - max 1 (min 0 2)) ∧
    processPart ("9-12".data) 5 = [] ∧
    processPart ("0".data) 5 = [] :=
  ⟨parseRanges_clamp_vs_drop.2.2.1 ("0-2".data) 0 2 5 (by decide),
   parseRanges_clamp_vs_drop.2.2.2.1 ("9-12".data) 9 12 5 (by decide)
     (Or.inl (by decide)),
   parseRanges_clamp_vs_drop.2.2.2.2 ("0".data) 5 0 (by decide) (by decide)
     (by decide) (by decide) (by decide)⟩

/-- C6: range symmetry — for all naturals `a`, `b` and every upperBound,
the token `a-b` parses to the same sequence as `b-a`. -/
theorem parseRanges_range_symmetry (a b N : Nat) :
    parseRanges (String.mk (natChars a ++ '-' :: natChars b)) N =
    parseRanges (String.mk (natChars b ++ '-' :: natChars a)) N := by
  show parseRangesL (natChars a ++ '-' :: natChars b) N =
    parseRangesL (natChars b ++ '-' :: natChars a) N
  rw [parse_closed_token, parse_closed_token, expandRange_comm]

/-- C7: open-range equivalence — for `1 ≤ k ≤ N`, the open-ended token
`k-` parses as `k-N` and the open-start token `-k` parses as `1-k`. -/
theorem parseRanges_open_range_equiv (k N : Nat) (hk1 : 1 ≤ k) (hk2 : k ≤ N) :
    (parseRanges (String.mk (natChars k ++ ['-'])) N =
      parseRanges (String.mk (natChars k ++ '-' :: natChars N)) N) ∧
    (parseRanges (String.mk ('-' :: natChars k)) N =
      parseRanges (String.mk ('1' :: '-' :: natChars k)) N) := by
  constructor
  · show parseRangesL (natChars k ++ ['-']) N =
      parseRangesL (natChars k ++ '-' :: natChars N) N
    rw [parse_openEnd_token, parse_closed_token]
  · show parseRangesL ('-' :: natChars k) N =
      parseRangesL ('1' :: '-' :: natChars k) N
    rw [parse_openStart_token,
      show ('1' : Char) :: '-' :: natChars k = natChars 1 ++ '-' :: natChars k from by
        rw [show natChars 1 = ['1'] from by unfold natChars; simp [digitChar]]
        rfl,
      parse_closed_token]

theorem parseRanges_open_range_equiv_witness :
    (parseRanges (String.mk (natChars 2 ++ ['-'])) 5 =
      parseRanges (String.mk (natChars 2 ++ '-' :: natChars 5)) 5) ∧
    (parseRanges (String.mk ('-' :: natChars 2)) 5 =
      parseRanges (String.mk ('1' :: '-' :: natChars 2)) 5) :=
  parseRanges_open_range_equiv 2 5 (by decide) (by decide)

/-- C8: deduplication with first-occurrence order — the output contains
no repeated integer, equals the first-occurrence deduplication of the
working sequence of expanded pages, and a second deduplication pass
leaves it unchanged. -/
theorem parseRanges_dedup_first_occurrence (str : String) (N : Nat) :
    (parseRanges str N).Nodup ∧
    parseRanges str N = specDedup (expandAll (segmentsL (jsTrimL str.data)) N) ∧
    dedup (parseRanges str N) = parseRanges str N := by
  have h : parseRanges str N = dedup (expandAll (segmentsL (jsTrimL str.data)) N) := by
    rw [parseRanges, parseRangesL_eq_dedup]
  refine ⟨?_, ?_, ?_⟩
  · rw [h]
    exact dedup_nodup _
  · rw [h, specDedup_eq_dedup]
  · rw [h, dedup_idem]

/-- C9: determinism / referential transparency — the parser is a pure
function of its two arguments: identical inputs yield identical outputs. -/
theorem parseRanges_deterministic (s1 s2 : String) (N1 N2 : Nat)
    (hs : s1 = s2) (hN : N1 = N2) : parseRanges s1 N1 = parseRanges s2 N2 := by
  rw [hs, hN]

theorem parseRanges_deterministic_witness :
    parseRanges "1-3,5" 10 = parseRanges "1-3,5" 10 :=
  parseRanges_deterministic "1-3,5" "1-3,5" 10 10 rfl rfl

/-- C10 (counterexample): the two `parseRanges` definitions in the
repository do not compute the same function — the copy embedded in
`src/app.js` lacks the open-range patterns, so on `"7-"` the standalone
module expands to the last page while the copy salvages `7` as a single
value via `parseInt`. -/
theorem parseRanges_app_copy_differs :
    parseRanges "7-" 10 = [7, 8, 9, 10] ∧ parseRangesApp "7-" 10 = [7] ∧
    parseRanges "7-" 10 ≠ parseRangesApp "7-" 10 := by
  decide

/-- C10 (amended): the two definitions agree on every specification none
of whose segments matches the open-ended or open-start range pattern; on
such segments both run the identical closed-range and single-value code. -/
theorem parseRanges_app_copy_agree (str : String) (N : Nat)
    (h : ∀ p ∈ segmentsL (jsTrimL str.data),
      matchOpenEnd p = none ∧ matchOpenStart p = none) :
    parseRanges str N = parseRangesApp str N := by
  rw [parseRanges, parseRangesApp]
  simp only [parseRangesL, parseRangesAppL]
  split
  · rfl
  · rw [expandAll_eq_app h]

theorem parseRanges_app_copy_agree_witness :
    parseRanges "1-3,5" 10 = parseRangesApp "1-3,5" 10 :=
  parseRanges_app_copy_agree "1-3,5" 10 (by decide)
